import Mathlib

/-!
Verification of the `pyvenn` diagram library, a shallow embedding of
`src/venn/_venn.py`.

Modelling conventions:

* Python sets of hashable elements become `Finset ℕ` (only membership and
  cardinality matter to the library).
* Python strings become `List Char`; dicts with insertion order become
  association lists (`List (key × value)`); dict lookup is `List.lookup`.
* Python exceptions become `Except PyError`; a function that can raise
  returns `Except PyError α` and every raise site is an `Except.error`.
* Python float arithmetic on `100 * size / universe_size` is embedded as
  exact rational arithmetic (`ℚ`); the quantities the spec speaks about are
  exact at these inputs.
* The call `fmt.format(logic=..., size=..., percentage=...)` passes three
  keyword arguments to Python's builtin template formatter.  The formatter
  is embedded two ways: `generate_petal_labels` is parametric in the
  formatting function (the denotation of the template), and `fmtDenote`
  interprets an explicit template string (used by the dispatcher, which
  compares template strings).
* The static coordinate tables (`SHAPE_COORDS`, `PETAL_LABEL_COORDS`,
  `PSEUDOVENN_PETAL_COORDS`, ...) live in `venn/_constants.py`, which is not
  part of the sources under verification; they are pure data (spec section 2
  and 3), so they are carried as an explicit parameter record
  `VennConstants` and all theorems hold for every choice of tables.
* The decorators `ensure_axes` / `validate_arguments` (from `venn/_utils.py`,
  also outside the sources) only prepare the drawing surface and the argument
  record; they are treated as identity on the modelled arguments, and the
  matplotlib axes object is modelled as the list of draw commands issued
  to it.
-/

namespace Pyvenn

/-- Python exception kinds raised by the embedded code. -/
inductive PyError where
  | typeError
  | valueError
  | keyError
  | zeroDivisionError
  | notImplementedError
  deriving DecidableEq, Repr

/-- Fuelled positional-notation writer: with enough fuel this satisfies the
recurrence of Python's number rendering (least significant digit last).
The fuel argument only forces termination; see `pyRepr_unfold`. -/
def pyReprAux (base : Nat) : Nat → Nat → List Char
  | 0, _ => []
  | _fuel + 1, n =>
    if n < base then [Nat.digitChar n]
    else pyReprAux base _fuel (n / base) ++ [Nat.digitChar (n % base)]

/-- Positional rendering of `n` in the given base, most significant digit
first, rendering `0` as `"0"` (as Python's `bin`/`str` do). -/
def pyRepr (base n : Nat) : List Char :=
  pyReprAux base (n + 1) n

/-- Python `bin(n)[2:]`: minimal binary representation of `n`. -/
def pyBin (n : Nat) : List Char :=
  pyRepr 2 n

/-- Python `str(n)` for a nonnegative integer: decimal representation. -/
def pyStr (n : Nat) : List Char :=
  pyRepr 10 n

/-- Python `s.zfill(w)`: left-pad with `'0'` up to width `w`. -/
def zfill (w : Nat) (s : List Char) : List Char :=
  List.replicate (w - s.length) '0' ++ s

/-- The stream of logic codes produced by
`(bin(i)[2:].zfill(n_sets) for i in range(1, 2**n_sets))` in
`generate_petal_labels`. -/
def logicCodes (n_sets : Nat) : List (List Char) :=
  (List.range' 1 (2 ^ n_sets - 1)).map (fun i => zfill n_sets (pyBin i))

/-- Python `int(s)` restricted to nonnegative decimal digit strings (the only
shape the library feeds it: labels produced by the default `size` template);
any other string is a `ValueError`, encoded as `none`. -/
def pyInt (s : List Char) : Option Nat :=
  if s ≠ [] ∧ s.all (fun c => c.isDigit) then
    some (s.foldl (fun a c => 10 * a + (c.toNat - 48)) 0)
  else none

/-- Closed form for a zero-padded binary code: character `j` of `codeOf n i`
is `'1'` exactly when binary digit `n - 1 - j` of `i` is set.  This is the
analysis-side normal form of `zfill n (pyBin i)`; see `zfill_pyBin_eq_codeOf`. -/
def codeOf (n i : Nat) : List Char :=
  (List.range n).map (fun j => if i / 2 ^ (n - 1 - j) % 2 = 1 then '1' else '0')

/-- Numeric value of a binary code string (inverse of `codeOf`). -/
def valOfBits (c : List Char) : Nat :=
  c.foldl (fun a ch => 2 * a + if ch = '1' then 1 else 0) 0

/-- Membership-indicator code of an element `x` with respect to an ordered
list of sets: one character per set, `'1'` iff `x` belongs to that set. -/
def indCode (ds : List (Finset ℕ)) (x : ℕ) : List Char :=
  ds.map (fun s => if x ∈ s then '1' else '0')

/-- Python `set.intersection(*sets)` for a nonempty argument list; the empty
list raises `TypeError` in Python and never occurs in the library (every
nonzero logic code includes at least one set), so it is mapped to `∅`. -/
def py_set_intersection : List (Finset ℕ) → Finset ℕ
  | [] => ∅
  | s :: rest => rest.foldl (fun a b => a ∩ b) s

/-- Python `set.union(init, *sets)`. -/
def py_set_union (init : Finset ℕ) (sets : List (Finset ℕ)) : Finset ℕ :=
  sets.foldl (fun a b => a ∪ b) init

/-- Python `set.union(*datasets)` as used for the universe; the empty
argument list raises `TypeError` (handled at the caller). -/
def dataset_union (ds : List (Finset ℕ)) : Finset ℕ :=
  match ds with
  | [] => ∅
  | s :: rest => py_set_union s rest

/-- The petal region for one logic code, exactly as `generate_petal_labels`
computes it: `(dataset_union & set.intersection(*included_sets)) -
set.union(set(), *excluded_sets)` with
`included_sets = [datasets[i] for i in range(n_sets) if logic[i] == "1"]` and
`excluded_sets = [datasets[i] for i in range(n_sets) if logic[i] == "0"]`. -/
def petal_set (ds : List (Finset ℕ)) (logic : List Char) : Finset ℕ :=
  let n := ds.length
  let included := ((List.range n).filter (fun i => logic.getD i '0' = '1')).map
    (fun i => ds.getD i ∅)
  let excluded := ((List.range n).filter (fun i => logic.getD i '0' = '0')).map
    (fun i => ds.getD i ∅)
  (dataset_union ds ∩ py_set_intersection included) \ py_set_union ∅ excluded

/-- Specification-side petal region, written from the spec's words: the
universe, intersected with every included set, minus every excluded set
(a set is included iff its bit in the code is `'1'`). -/
def spec_petal (ds : List (Finset ℕ)) (c : List Char) : Finset ℕ :=
  (dataset_union ds).filter (fun x =>
    (∀ i < ds.length, c.getD i '0' = '1' → x ∈ ds.getD i ∅) ∧
    (∀ i < ds.length, c.getD i '0' = '0' → x ∉ ds.getD i ∅))

/-- The loop body of `generate_petal_labels`: one `Except.ok` entry per logic
code in code order, raising `ZeroDivisionError` out of the percentage
computation `100*len(petal_set)/universe_size` when the universe is empty
(the division is evaluated unconditionally while building the keyword
arguments of `fmt.format`). -/
def petal_loop {α : Type} (u : Finset ℕ) (fmt : List Char → Nat → ℚ → α)
    (ds : List (Finset ℕ)) : List (List Char) → Except PyError (List (List Char × α))
  | [] => Except.ok []
  | logic :: rest =>
    if u.card = 0 then Except.error PyError.zeroDivisionError
    else
      match petal_loop u fmt ds rest with
      | Except.error e => Except.error e
      | Except.ok l =>
        Except.ok ((logic,
          fmt logic (petal_set ds logic).card
            (100 * ((petal_set ds logic).card : ℚ) / (u.card : ℚ))) :: l)

/-- Embedding of `generate_petal_labels(datasets, fmt)`.  The template
argument is carried as the function the template string denotes (it receives
the keyword arguments `logic`, `size`, `percentage` of `fmt.format`); the
returned association list is the built dict in insertion order. -/
def generate_petal_labels {α : Type} (datasets : List (Finset ℕ))
    (fmt : List Char → Nat → ℚ → α) : Except PyError (List (List Char × α)) :=
  match datasets with
  | [] => Except.error PyError.typeError
  | _ :: _ => petal_loop (dataset_union datasets) fmt datasets (logicCodes datasets.length)

/-- The key-validation loop of `get_n_sets`: for each key, first the length
check (`ValueError`), then the character check (`KeyError`). -/
def check_logic_keys (n : Nat) : List (List Char) → Except PyError Unit
  | [] => Except.ok ()
  | logic :: rest =>
    if logic.length ≠ n then Except.error PyError.valueError
    else if ¬ (logic.all (fun c => c = '0' ∨ c = '1')) then Except.error PyError.keyError
    else check_logic_keys n rest

/-- Embedding of `get_n_sets(petal_labels, dataset_labels)`. -/
def get_n_sets {β : Type} (petal_labels : List (List Char × β))
    (dataset_labels : List (List Char)) : Except PyError Nat :=
  match check_logic_keys dataset_labels.length (petal_labels.map Prod.fst) with
  | Except.error e => Except.error e
  | Except.ok _ => Except.ok dataset_labels.length

/-- A Python number as it reaches the `isinstance(n_colors, int)` check. -/
inductive PyNumber where
  | int (n : Int)
  | float (q : ℚ)
  deriving DecidableEq, Repr

/-- An RGBA tuple (red, green, blue, alpha). -/
abbrev RGBA := ℚ × ℚ × ℚ × ℚ

/-- A color specification matplotlib can parse (its RGB value once parsed). -/
structure ColorSpec where
  r : ℚ
  g : ℚ
  b : ℚ
  deriving DecidableEq, Repr

/-- Matplotlib `to_rgba(color, alpha=alpha)`: parse the color and override
its alpha channel. -/
def to_rgba (c : ColorSpec) (alpha : ℚ) : RGBA :=
  (c.r, c.g, c.b, alpha)

/-- The `cmap` argument of `generate_colors`: either a colormap identifier or
an explicit ordered list of color specifications. -/
inductive CmapArg where
  | name (cmap : List Char)
  | colorList (cs : List ColorSpec)

/-- Embedding of `generate_colors(cmap, n_colors, alpha)`.  The matplotlib
colormap sampler (`ScalarMappable(cmap=cmap).to_rgba(range(n_colors))`) is
library-internal and is carried as the parameter `sample`, returning the RGB
sample of colormap `nm` at integer point `i`; the alpha keyword sets the
fourth channel of every row. -/
def generate_colors (sample : List Char → Nat → ℚ × ℚ × ℚ) (cmap : CmapArg)
    (n_colors : PyNumber) (alpha : ℚ) : Except PyError (List RGBA) :=
  match n_colors with
  | PyNumber.float _ => Except.error PyError.valueError
  | PyNumber.int n =>
    if n < 2 ∨ 6 < n then Except.error PyError.valueError
    else
      let colors : List RGBA :=
        match cmap with
        | CmapArg.colorList cs => cs.map (fun c => to_rgba c alpha)
        | CmapArg.name nm =>
          (List.range n.toNat).map (fun i =>
            ((sample nm i).1, (sample nm i).2.1, (sample nm i).2.2, alpha))
      Except.ok (colors.take n.toNat)

/-- The two geometric shape variants of the full-Venn composer. -/
inductive Shape where
  | ellipse
  | triangle
  deriving DecidableEq, Repr

/-- One drawing command issued to the axes object.  `shape` records an
`ax.add_patch` from `draw_venn` (with the geometry-table row it received);
`pseudocircle` records one of the six radially arranged circles of
`draw_pseudovenn6`, whose real-valued center `(.5 + .2*cos(a), .5 + .2*sin(a))`
is a fixed function of `step` (transcendental floats, kept abstract);
`hintText` records one `"{n}\n n/d*"` hidden-count annotation at `step`;
`hintExplanation` records the caption naming two example dataset labels. -/
inductive DrawCmd where
  | shape (kind : Shape) (coords : List ℚ) (dims : List ℚ) (angle : ℚ) (color : RGBA)
  | pseudocircle (step : Nat) (color : RGBA)
  | text (x y : ℚ) (label : List Char)
  | hintText (step : Nat) (value : Nat)
  | hintExplanation (label0 label3 : List Char)
  | legend (labels : List (List Char)) (loc : List Char)
  deriving DecidableEq, Repr

/-- Boolean check that every `shape` command in a command list uses the given
variant (non-shape commands are ignored). -/
def allShapesAre (k : Shape) (cmds : List DrawCmd) : Bool :=
  cmds.all (fun c =>
    match c with
    | DrawCmd.shape k' _ _ _ _ => k' == k
    | _ => true)

/-- Modelled from the spec: the static lookup tables of `venn/_constants.py`
(not among the sources).  They are pure hand-tuned data — per set count, a
row of (coordinates, dimensions, angle) per shape, and a logic-code →
position map for petal text (with a separate, sparser map for the six-set
pseudo-Venn) — so they are carried as an abstract parameter record. -/
structure VennConstants where
  SHAPE_COORDS : Nat → List (List ℚ)
  SHAPE_DIMS : Nat → List (List ℚ)
  SHAPE_ANGLES : Nat → List ℚ
  PETAL_LABEL_COORDS : Nat → List Char → Option (ℚ × ℚ)
  PSEUDOVENN_PETAL_COORDS6 : List Char → Option (ℚ × ℚ)

/-- The drawing phase of `draw_venn` once the shape variant is selected:
`zip(SHAPE_COORDS[n], SHAPE_DIMS[n], SHAPE_ANGLES[n], colors)` truncates to
the shortest sequence; petal texts are drawn only for codes present in the
position table; the legend is drawn when a location is given. -/
def draw_venn_body (K : VennConstants) (petal_labels : List (List Char × List Char))
    (dataset_labels : List (List Char)) (colors : List RGBA)
    (legend_loc : Option (List Char)) (n_sets : Nat) (kind : Shape) : List DrawCmd :=
  let shapes :=
    ((K.SHAPE_COORDS n_sets).zip ((K.SHAPE_DIMS n_sets).zip
      ((K.SHAPE_ANGLES n_sets).zip colors))).map
      (fun row => DrawCmd.shape kind row.1 row.2.1 row.2.2.1 row.2.2.2)
  let texts := petal_labels.filterMap (fun p =>
    (K.PETAL_LABEL_COORDS n_sets p.1).map (fun xy => DrawCmd.text xy.1 xy.2 p.2))
  let legends :=
    match legend_loc with
    | some loc => [DrawCmd.legend dataset_labels loc]
    | none => []
  shapes ++ texts ++ legends

/-- Embedding of `draw_venn`: infer and validate the set count, select the
shape variant (`2 <= n_sets < 6` → ellipse, `n_sets == 6` → triangle,
otherwise `ValueError`), draw one shape per `zip` row of the geometry tables
and colors, draw each petal label whose code is in the position table, and
draw the legend when a location is given. -/
def draw_venn (K : VennConstants) (petal_labels : List (List Char × List Char))
    (dataset_labels : List (List Char)) (_hint_hidden : Bool) (colors : List RGBA)
    (legend_loc : Option (List Char)) : Except PyError (List DrawCmd) :=
  match get_n_sets petal_labels dataset_labels with
  | Except.error e => Except.error e
  | Except.ok n_sets =>
    if 2 ≤ n_sets ∧ n_sets < 6 then
      Except.ok (draw_venn_body K petal_labels dataset_labels colors legend_loc n_sets Shape.ellipse)
    else if n_sets = 6 then
      Except.ok (draw_venn_body K petal_labels dataset_labels colors legend_loc n_sets Shape.triangle)
    else Except.error PyError.valueError

/-- Python `enumerate`, starting at index `k`. -/
def pyEnumerate {α : Type} : Nat → List α → List (Nat × α)
  | _, [] => []
  | k, a :: l => (k, a) :: pyEnumerate (k + 1) l

/-- The mutation loop of `update_hidden`: for every enumerated character of
the logic code, add `v` (the parsed label value) to the counter of each set
whose bit is `'1'`. -/
def update_hidden_go (v : Nat) : List Nat → List (Nat × Char) → List Nat
  | hidden, [] => hidden
  | hidden, ic :: rest =>
    update_hidden_go v
      (if ic.2 = '1' then hidden.set ic.1 (hidden.getD ic.1 0 + v) else hidden) rest

/-- Embedding of `update_hidden(hidden, logic, petal_labels)`: every set bit
of `logic` increments that set's counter by `int(petal_labels[logic])`.  In
the source the lookup and `int` conversion are (re-)evaluated at each set
bit; both are pure, so they are hoisted here, the conversion guarded by the
existence of a set bit so that the raise behaviour is unchanged (with no set
bit Python performs no lookup-parse and returns the counters untouched). -/
def update_hidden (hidden : List Nat) (logic : List Char)
    (petal_labels : List (List Char × List Char)) : Except PyError (List Nat) :=
  if '1' ∈ logic then
    match petal_labels.lookup logic with
    | none => Except.error PyError.keyError
    | some lbl =>
      match pyInt lbl with
      | none => Except.error PyError.valueError
      | some v => Except.ok (update_hidden_go v hidden (pyEnumerate 0 logic))
  else Except.ok hidden

/-- The petal loop of `draw_pseudovenn6`: for each petal entry, either draw
its text (when its code is in the sparse pseudo-Venn position table), or —
with `hint_hidden` enabled — accumulate it into the hidden counters via
`update_hidden`; other entries are skipped. -/
def pseudovenn_loop (disp : List Char → Option (ℚ × ℚ))
    (pl : List (List Char × List Char)) (hint_hidden : Bool) :
    List (List Char × List Char) → List DrawCmd × List Nat →
    Except PyError (List DrawCmd × List Nat)
  | [], st => Except.ok st
  | p :: rest, st =>
    match disp p.1 with
    | some xy =>
      pseudovenn_loop disp pl hint_hidden rest (st.1 ++ [DrawCmd.text xy.1 xy.2 p.2], st.2)
    | none =>
      if hint_hidden then
        match update_hidden st.2 p.1 pl with
        | Except.error e => Except.error e
        | Except.ok h => pseudovenn_loop disp pl hint_hidden rest (st.1, h)
      else pseudovenn_loop disp pl hint_hidden rest st

/-- Embedding of `draw_pseudovenn6`: infer and validate the set count,
reject any count other than six with `NotImplementedError`, draw the six
circles (`zip(range(6), colors)` truncates to the shorter list), run the
petal loop, then — with `hint_hidden` enabled — annotate each circle with its
hidden counter and add the explanatory caption naming dataset labels 0 and 3,
and finally the legend when a location is given. -/
def draw_pseudovenn6 (K : VennConstants) (petal_labels : List (List Char × List Char))
    (dataset_labels : List (List Char)) (hint_hidden : Bool) (colors : List RGBA)
    (legend_loc : Option (List Char)) : Except PyError (List DrawCmd) :=
  match get_n_sets petal_labels dataset_labels with
  | Except.error e => Except.error e
  | Except.ok n_sets =>
    if n_sets ≠ 6 then Except.error PyError.notImplementedError
    else
      let circles := ((List.range 6).zip colors).map
        (fun sc => DrawCmd.pseudocircle sc.1 sc.2)
      match pseudovenn_loop K.PSEUDOVENN_PETAL_COORDS6 petal_labels hint_hidden
          petal_labels ([], List.replicate n_sets 0) with
      | Except.error e => Except.error e
      | Except.ok st =>
        let hints :=
          if hint_hidden then
            ((List.range 6).zip st.2).map (fun sh => DrawCmd.hintText sh.1 sh.2) ++
              [DrawCmd.hintExplanation (dataset_labels.getD 0 []) (dataset_labels.getD 3 [])]
          else []
        let legends :=
          match legend_loc with
          | some loc => [DrawCmd.legend dataset_labels loc]
          | none => []
        Except.ok (circles ++ st.1 ++ hints ++ legends)

/-- The opening-brace character of a Python format field. -/
def braceL : Char := Char.ofNat 123

/-- The closing-brace character of a Python format field. -/
def braceR : Char := Char.ofNat 125

/-- The default format template of the library, the string of `'{'`, `size`,
`'}'` — the bare size field. -/
def default_fmt : List Char :=
  braceL :: 's' :: 'i' :: 'z' :: 'e' :: [braceR]

/-- Rendering of the percentage value.  Python renders a float here; this
embedding renders the exact rational as numerator, slash, denominator.  No
library behaviour under verification depends on this rendering. -/
def pctRepr (q : ℚ) : List Char :=
  pyStr q.num.toNat ++ '/' :: pyStr q.den

/-- Value of one named field of the template, from the keyword arguments of
`fmt.format(logic=..., size=..., percentage=...)`.  An unknown field name
raises `KeyError` in Python; the library never produces one, and no claim
depends on that case, so it renders as the empty string. -/
def fieldVal (lg : List Char) (sz : Nat) (pct : ℚ) (field : List Char) : List Char :=
  if field = ['l', 'o', 'g', 'i', 'c'] then lg
  else if field = ['s', 'i', 'z', 'e'] then pyStr sz
  else if field = ['p', 'e', 'r', 'c', 'e', 'n', 't', 'a', 'g', 'e'] then pctRepr pct
  else []

/-- Interpreter for Python `str.format` restricted to plain named fields:
characters are copied, a field between braces is substituted by its value.
The `Option` state holds the field name being read.  (A template with an
unterminated field raises in Python; the library never builds one.) -/
def pyFormatGo (lg : List Char) (sz : Nat) (pct : ℚ) :
    Option (List Char) → List Char → List Char
  | _, [] => []
  | none, c :: rest =>
    if c = braceL then pyFormatGo lg sz pct (some []) rest
    else c :: pyFormatGo lg sz pct none rest
  | some field, c :: rest =>
    if c = braceR then fieldVal lg sz pct field ++ pyFormatGo lg sz pct none rest
    else pyFormatGo lg sz pct (some (field ++ [c])) rest

/-- Denotation of a template string as a formatting function: what
`fmt.format(logic=lg, size=sz, percentage=pct)` returns. -/
def fmtDenote (fmt : List Char) : List Char → Nat → ℚ → List Char :=
  fun lg sz pct => pyFormatGo lg sz pct none fmt

/-- The composer selected by the dispatcher (`func` argument of
`_venn_dispatch`). -/
inductive VennFunc where
  | venn
  | pseudovenn6
  deriving DecidableEq, Repr

/-- Embedding of `_venn_dispatch(data, func=..., ...)`: with `hint_hidden`
and the pseudo-Venn composer, any template other than `None` or the default
size template is rejected up front with `NotImplementedError`; otherwise the
petal labels are taken as given or generated with the template (defaulted to
the size template), the colors are generated for `len(data)` sets, and the
selected composer is invoked. -/
def venn_dispatch (K : VennConstants) (sample : List Char → Nat → ℚ × ℚ × ℚ)
    (data : List (List Char × Finset ℕ)) (func : VennFunc)
    (petal_labels : Option (List (List Char × List Char))) (fmt : Option (List Char))
    (hint_hidden : Bool) (cmap : CmapArg) (alpha : ℚ)
    (legend_loc : Option (List Char)) : Except PyError (List DrawCmd) :=
  if hint_hidden ∧ func = VennFunc.pseudovenn6 ∧ ¬ (fmt = none ∨ fmt = some default_fmt) then
    Except.error PyError.notImplementedError
  else
    match
      (match petal_labels with
       | some pl => Except.ok pl
       | none =>
         generate_petal_labels (data.map Prod.snd) (fmtDenote (fmt.getD default_fmt))) with
    | Except.error e => Except.error e
    | Except.ok pl =>
      match generate_colors sample cmap (PyNumber.int data.length) alpha with
      | Except.error e => Except.error e
      | Except.ok colors =>
        match func with
        | VennFunc.venn =>
          draw_venn K pl (data.map Prod.fst) hint_hidden colors legend_loc
        | VennFunc.pseudovenn6 =>
          draw_pseudovenn6 K pl (data.map Prod.fst) hint_hidden colors legend_loc

/-- A concrete table record used to evaluate the drawing functions on
closed inputs (one geometry row per set count, empty position tables). -/
def K0 : VennConstants :=
  ⟨fun _ => [[0, 0]], fun _ => [[1, 1]], fun _ => [0], fun _ _ => none, fun _ => none⟩

/-- A concrete table record whose sparse pseudo-Venn position table displays
exactly the code `"100000"`. -/
def K1 : VennConstants :=
  ⟨fun _ => [[0, 0]], fun _ => [[1, 1]], fun _ => [0], fun _ _ => none,
    fun c => if c = ['1', '0', '0', '0', '0', '0'] then some (0, 0) else none⟩

/-- A concrete colormap sampler used to evaluate `generate_colors` on closed
inputs. -/
def sample0 : List Char → Nat → ℚ × ℚ × ℚ :=
  fun _ _ => (0, 0, 0)

/-- Six concrete pairwise-disjoint datasets used to evaluate the pseudo-Venn
accounting on a closed input. -/
def ds6 : List (Finset ℕ) :=
  [{1}, {2}, {3}, {4}, {5}, {6}]

/-- The petal labels `generate_petal_labels` produces for `ds6` under the
default size template. -/
def pl6 : List (List Char × List Char) :=
  (logicCodes 6).map (fun c => (c, pyStr (petal_set ds6 c).card))

/-- Six concrete dataset labels. -/
def dl6 : List (List Char) :=
  [['A'], ['B'], ['C'], ['D'], ['E'], ['F']]

/-- The draw-command log `draw_pseudovenn6` produces on the concrete
six-set input (empty on the unreachable error branch). -/
def out6 : List DrawCmd :=
  match draw_pseudovenn6 K1 pl6 dl6 true [] none with
  | Except.ok o => o
  | Except.error _ => []

/-! ### Positional number rendering -/

theorem pyReprAux_mono (base : Nat) (hb : 2 ≤ base) :
    ∀ f₁ f₂ n, n < f₁ → n < f₂ → pyReprAux base f₁ n = pyReprAux base f₂ n := by
  intro f₁
  induction f₁ with
  | zero => intro f₂ n h1 _; omega
  | succ f ih =>
    intro f₂ n h1 h2
    match f₂, h2 with
    | g + 1, h2 =>
      simp only [pyReprAux]
      by_cases hn : n < base
      · simp [hn]
      · have hd : n / base < n := Nat.div_lt_self (by omega) (by omega)
        simp only [if_neg hn]
        rw [ih g (n / base) (by omega) (by omega)]

/-- The recurrence the source's number rendering satisfies. -/
theorem pyRepr_unfold (base : Nat) (hb : 2 ≤ base) (n : Nat) :
    pyRepr base n =
      if n < base then [Nat.digitChar n]
      else pyRepr base (n / base) ++ [Nat.digitChar (n % base)] := by
  by_cases hn : n < base
  · simp [pyRepr, pyReprAux, hn]
  · have hd : n / base < n := Nat.div_lt_self (by omega) (by omega)
    rw [if_neg hn]
    show pyReprAux base (n + 1) n = pyReprAux base (n / base + 1) (n / base) ++ [Nat.digitChar (n % base)]
    have step : pyReprAux base (n + 1) n =
        pyReprAux base n (n / base) ++ [Nat.digitChar (n % base)] := by
      conv_lhs => rw [pyReprAux]
      rw [if_neg hn]
    rw [step]
    congr 1
    exact pyReprAux_mono base hb n (n / base + 1) (n / base) (by omega) (by omega)

theorem digitChar_toNat {d : Nat} (hd : d < 10) : (Nat.digitChar d).toNat = 48 + d := by
  interval_cases d <;> decide

theorem digitChar_isDigit {d : Nat} (hd : d < 10) : (Nat.digitChar d).isDigit = true := by
  interval_cases d <;> decide

theorem pyStr_ne_nil (n : Nat) : pyStr n ≠ [] := by
  rw [pyStr, pyRepr_unfold 10 (by omega) n]
  split
  · exact List.cons_ne_nil _ _
  · exact fun h => by simpa using congrArg List.length h

theorem pyStr_all_digit (n : Nat) : ∀ c ∈ pyStr n, c.isDigit = true := by
  induction n using Nat.strong_induction_on with
  | _ n ih =>
    rw [pyStr, pyRepr_unfold 10 (by omega) n]
    by_cases hn : n < 10
    · simp only [if_pos hn, List.mem_singleton]
      rintro c rfl
      exact digitChar_isDigit hn
    · simp only [if_neg hn, List.mem_append, List.mem_singleton]
      rintro c (hc | rfl)
      · exact ih (n / 10) (Nat.div_lt_self (by omega) (by omega)) c hc
      · exact digitChar_isDigit (Nat.mod_lt n (by omega))

theorem pyStr_foldl (n : Nat) :
    (pyStr n).foldl (fun a c => 10 * a + (c.toNat - 48)) 0 = n := by
  induction n using Nat.strong_induction_on with
  | _ n ih =>
    rw [pyStr, pyRepr_unfold 10 (by omega) n]
    by_cases hn : n < 10
    · rw [if_pos hn]
      simp only [List.foldl_cons, List.foldl_nil, digitChar_toNat hn]
      omega
    · rw [if_neg hn, List.foldl_append]
      rw [show (pyRepr 10 (n / 10)).foldl (fun a c => 10 * a + (c.toNat - 48)) 0 = n / 10 from
        ih (n / 10) (Nat.div_lt_self (by omega) (by omega))]
      simp only [List.foldl_cons, List.foldl_nil]
      rw [digitChar_toNat (Nat.mod_lt n (by omega))]
      omega

/-- Round trip: Python `int(str(n)) == n`. -/
theorem pyInt_pyStr (n : Nat) : pyInt (pyStr n) = some n := by
  rw [pyInt, if_pos ⟨pyStr_ne_nil n, List.all_eq_true.mpr (fun c hc => pyStr_all_digit n c hc)⟩,
    pyStr_foldl]

/-! ### Binary codes -/

theorem codeOf_length (n i : Nat) : (codeOf n i).length = n := by
  simp [codeOf]

theorem codeOf_chars (n i : Nat) : ∀ ch ∈ codeOf n i, ch = '0' ∨ ch = '1' := by
  intro ch hch
  simp only [codeOf, List.mem_map, List.mem_range] at hch
  obtain ⟨j, _, hj⟩ := hch
  split at hj
  · right; exact hj.symm
  · left; exact hj.symm

theorem codeOf_getD (n i j : Nat) (hj : j < n) :
    (codeOf n i).getD j '0' = if i / 2 ^ (n - 1 - j) % 2 = 1 then '1' else '0' := by
  simp [codeOf, List.getD_eq_getElem?_getD, List.getElem?_map, List.getElem?_range, hj]

theorem codeOf_zero (n : Nat) : codeOf n 0 = List.replicate n '0' := by
  simp [codeOf, List.map_eq_replicate_iff]

theorem codeOf_succ (n i : Nat) :
    codeOf (n + 1) i = codeOf n (i / 2) ++ [if i % 2 = 1 then '1' else '0'] := by
  unfold codeOf
  rw [List.range_succ, List.map_append]
  congr 1
  · apply List.map_congr_left
    intro j hj
    rw [List.mem_range] at hj
    have h1 : i / 2 ^ (n + 1 - 1 - j) = i / 2 / 2 ^ (n - 1 - j) := by
      rw [Nat.div_div_eq_div_mul]
      congr 1
      rw [← pow_succ']
      congr 1
      omega
    rw [h1]
  · simp

theorem codeOf_inj {n i j : Nat} (hi : i < 2 ^ n) (hj : j < 2 ^ n)
    (h : codeOf n i = codeOf n j) : i = j := by
  induction n generalizing i j with
  | zero =>
    simp only [pow_zero, Nat.lt_one_iff] at hi hj
    omega
  | succ n ih =>
    rw [codeOf_succ, codeOf_succ] at h
    have hlen : (codeOf n (i / 2)).length = (codeOf n (j / 2)).length := by
      simp [codeOf_length]
    obtain ⟨h1, h2⟩ := List.append_inj h hlen
    have hp : i % 2 = j % 2 := by
      by_cases hi2 : i % 2 = 1
      · by_cases hj2 : j % 2 = 1
        · omega
        · simp [hi2, hj2] at h2
      · by_cases hj2 : j % 2 = 1
        · simp [hi2, hj2] at h2
        · omega
    have h2n : (2 : ℕ) ^ (n + 1) = 2 * 2 ^ n := by ring
    have := ih (i := i / 2) (j := j / 2) (by omega) (by omega) h1
    omega

theorem valOfBits_append (c : List Char) (ch : Char) :
    valOfBits (c ++ [ch]) = 2 * valOfBits c + (if ch = '1' then 1 else 0) := by
  simp [valOfBits, List.foldl_append]

theorem valOfBits_lt (c : List Char) : valOfBits c < 2 ^ c.length := by
  induction c using List.reverseRecOn with
  | nil => simp [valOfBits]
  | append_singleton c ch ih =>
    rw [valOfBits_append]
    have h2 : (2 : ℕ) ^ (c ++ [ch]).length = 2 * 2 ^ c.length := by
      simp [List.length_append]
      ring
    split <;> omega

theorem codeOf_valOfBits (c : List Char) (hc : ∀ ch ∈ c, ch = '0' ∨ ch = '1') :
    codeOf c.length (valOfBits c) = c := by
  induction c using List.reverseRecOn with
  | nil => simp [valOfBits, codeOf]
  | append_singleton c ch ih =>
    have hch : ch = '0' ∨ ch = '1' := hc ch (by simp)
    have hc' : ∀ x ∈ c, x = '0' ∨ x = '1' := fun x hx => hc x (by simp [hx])
    rw [valOfBits_append, List.length_append, List.length_singleton, codeOf_succ]
    have hdiv : (2 * valOfBits c + (if ch = '1' then 1 else 0)) / 2 = valOfBits c := by
      split <;> omega
    have hmod : (2 * valOfBits c + (if ch = '1' then 1 else 0)) % 2 =
        (if ch = '1' then 1 else 0) := by
      split <;> omega
    rw [hdiv, hmod, ih hc']
    congr 1
    rcases hch with h | h <;> simp [h]

theorem valOfBits_ne_zero {c : List Char} (h1 : '1' ∈ c) : valOfBits c ≠ 0 := by
  induction c using List.reverseRecOn with
  | nil => simp at h1
  | append_singleton c ch ih =>
    rw [valOfBits_append]
    rcases List.mem_append.mp h1 with h | h
    · have := ih h
      omega
    · rw [List.mem_singleton] at h
      simp [← h]

theorem zfill_append_singleton (w : Nat) (s : List Char) (d : Char) :
    zfill (w + 1) (s ++ [d]) = zfill w s ++ [d] := by
  unfold zfill
  rw [List.append_assoc]
  have h : w + 1 - (s ++ [d]).length = w - s.length := by
    simp only [List.length_append, List.length_singleton]
    omega
  rw [h]

/-- The padded binary string built by the source generator equals its
analysis-side closed form. -/
theorem zfill_pyBin_eq_codeOf {n i : Nat} (hn : 0 < n) (hi : i < 2 ^ n) :
    zfill n (pyBin i) = codeOf n i := by
  induction n generalizing i with
  | zero => omega
  | succ n ih =>
    by_cases hn0 : n = 0
    · subst hn0
      interval_cases i <;> decide
    · by_cases hi2 : i < 2
      · have hbin : pyBin i = [Nat.digitChar i] := by
          rw [pyBin, pyRepr_unfold 2 (by omega) i, if_pos hi2]
        rw [hbin, codeOf_succ]
        have hd0 : i / 2 = 0 := by omega
        rw [hd0, codeOf_zero]
        show List.replicate (n + 1 - 1) '0' ++ [Nat.digitChar i] = _
        interval_cases i
        · simp
          decide
        · simp
          decide
      · have hbin : pyBin i = pyBin (i / 2) ++ [Nat.digitChar (i % 2)] := by
          rw [pyBin, pyRepr_unfold 2 (by omega) i, if_neg (by omega)]
          rfl
        have h2n : (2 : ℕ) ^ (n + 1) = 2 * 2 ^ n := by ring
        have ihd := ih (i := i / 2) (by omega) (by omega)
        rw [hbin, codeOf_succ, ← ihd, zfill_append_singleton]
        congr 1
        rcases Nat.mod_two_eq_zero_or_one i with h | h <;> rw [h] <;> decide

theorem logicCodes_length (n : Nat) : (logicCodes n).length = 2 ^ n - 1 := by
  simp [logicCodes]

/-- The generated keys are exactly the nonzero zero-padded binary codes. -/
theorem mem_logicCodes {n : Nat} {c : List Char} :
    c ∈ logicCodes n ↔
      c.length = n ∧ (∀ ch ∈ c, ch = '0' ∨ ch = '1') ∧ '1' ∈ c := by
  constructor
  · intro hc
    simp only [logicCodes, List.mem_map] at hc
    obtain ⟨i, hi, rfl⟩ := hc
    rw [List.mem_range'_1] at hi
    have hpow : 1 ≤ 2 ^ n := Nat.one_le_two_pow
    have hin : 0 < n := by
      by_contra h
      have hz : n = 0 := by omega
      subst hz
      simp at hpow
      omega
    rw [zfill_pyBin_eq_codeOf hin (by omega)]
    refine ⟨codeOf_length n i, codeOf_chars n i, ?_⟩
    by_contra h1
    have hall : ∀ ch ∈ codeOf n i, ch = '0' := by
      intro ch hch
      rcases codeOf_chars n i ch hch with h | h
      · exact h
      · exact absurd (h ▸ hch) h1
    have heq : codeOf n i = codeOf n 0 := by
      rw [codeOf_zero]
      exact List.eq_replicate_iff.mpr ⟨codeOf_length n i, hall⟩
    have := codeOf_inj (by omega) (by positivity) heq
    omega
  · rintro ⟨rfl, hchars, h1⟩
    have hn : 0 < c.length := by
      cases c with
      | nil => simp at h1
      | cons a l => simp
    have hv1 : valOfBits c ≠ 0 := valOfBits_ne_zero h1
    have hvlt : valOfBits c < 2 ^ c.length := valOfBits_lt c
    simp only [logicCodes, List.mem_map]
    refine ⟨valOfBits c, ?_, ?_⟩
    · rw [List.mem_range'_1]
      have hpow : 1 ≤ 2 ^ c.length := Nat.one_le_two_pow
      omega
    · rw [zfill_pyBin_eq_codeOf hn hvlt, codeOf_valOfBits c hchars]

theorem logicCodes_nodup (n : Nat) : (logicCodes n).Nodup := by
  by_cases hn : n = 0
  · subst hn
    simp [logicCodes]
  · apply List.Nodup.map_on _ (List.nodup_range' ..)
    intro x hx y hy hxy
    rw [List.mem_range'_1] at hx hy
    rw [zfill_pyBin_eq_codeOf (by omega) (by omega),
      zfill_pyBin_eq_codeOf (by omega) (by omega)] at hxy
    exact codeOf_inj (by omega) (by omega) hxy

/-! ### Membership in the fold-based set operations -/

theorem getD_of_lt {α : Type} (l : List α) (i : Nat) (d : α) (h : i < l.length) :
    l.getD i d = l[i] := by
  rw [List.getD_eq_getElem?_getD, List.getElem?_eq_getElem h]
  rfl

theorem mem_foldl_inter (l : List (Finset ℕ)) (a : Finset ℕ) (x : ℕ) :
    x ∈ l.foldl (fun a b => a ∩ b) a ↔ x ∈ a ∧ ∀ s ∈ l, x ∈ s := by
  induction l generalizing a with
  | nil => simp
  | cons s rest ih =>
    simp only [List.foldl_cons, ih, Finset.mem_inter, List.mem_cons]
    constructor
    · rintro ⟨⟨hxa, hxs⟩, hrest⟩
      refine ⟨hxa, ?_⟩
      rintro t (rfl | ht)
      · exact hxs
      · exact hrest t ht
    · rintro ⟨hxa, hall⟩
      exact ⟨⟨hxa, hall s (Or.inl rfl)⟩, fun t ht => hall t (Or.inr ht)⟩

theorem mem_foldl_union (l : List (Finset ℕ)) (a : Finset ℕ) (x : ℕ) :
    x ∈ l.foldl (fun a b => a ∪ b) a ↔ x ∈ a ∨ ∃ s ∈ l, x ∈ s := by
  induction l generalizing a with
  | nil => simp
  | cons s rest ih =>
    simp only [List.foldl_cons, ih, Finset.mem_union, List.mem_cons]
    constructor
    · rintro ((hxa | hxs) | ⟨t, ht, hxt⟩)
      · exact Or.inl hxa
      · exact Or.inr ⟨s, Or.inl rfl, hxs⟩
      · exact Or.inr ⟨t, Or.inr ht, hxt⟩
    · rintro (hxa | ⟨t, (rfl | ht), hxt⟩)
      · exact Or.inl (Or.inl hxa)
      · exact Or.inl (Or.inr hxt)
      · exact Or.inr ⟨t, ht, hxt⟩

theorem mem_py_set_intersection {l : List (Finset ℕ)} (hl : l ≠ []) (x : ℕ) :
    x ∈ py_set_intersection l ↔ ∀ s ∈ l, x ∈ s := by
  match l, hl with
  | s :: rest, _ =>
    simp only [py_set_intersection, mem_foldl_inter, List.mem_cons]
    constructor
    · rintro ⟨hxs, hall⟩ t (rfl | ht)
      · exact hxs
      · exact hall t ht
    · intro hall
      exact ⟨hall s (Or.inl rfl), fun t ht => hall t (Or.inr ht)⟩

theorem mem_py_set_union (init : Finset ℕ) (l : List (Finset ℕ)) (x : ℕ) :
    x ∈ py_set_union init l ↔ x ∈ init ∨ ∃ s ∈ l, x ∈ s :=
  mem_foldl_union l init x

theorem mem_dataset_union {ds : List (Finset ℕ)} (hds : ds ≠ []) (x : ℕ) :
    x ∈ dataset_union ds ↔ ∃ s ∈ ds, x ∈ s := by
  match ds, hds with
  | s :: rest, _ =>
    simp only [dataset_union, mem_py_set_union, List.mem_cons]
    constructor
    · rintro (hxs | ⟨t, ht, hxt⟩)
      · exact ⟨s, Or.inl rfl, hxs⟩
      · exact ⟨t, Or.inr ht, hxt⟩
    · rintro ⟨t, (rfl | ht), hxt⟩
      · exact Or.inl hxt
      · exact Or.inr ⟨t, ht, hxt⟩

theorem mem_dataset_union_of_mem {ds : List (Finset ℕ)} {i : Nat} (hi : i < ds.length)
    {x : ℕ} (hx : x ∈ ds.getD i ∅) : x ∈ dataset_union ds := by
  have hne : ds ≠ [] := by
    intro h
    rw [h] at hi
    simp at hi
  rw [mem_dataset_union hne]
  rw [getD_of_lt _ _ _ hi] at hx
  exact ⟨ds[i], List.getElem_mem hi, hx⟩

/-! ### The indicator code -/

theorem indCode_length (ds : List (Finset ℕ)) (x : ℕ) : (indCode ds x).length = ds.length := by
  simp [indCode]

theorem indCode_chars (ds : List (Finset ℕ)) (x : ℕ) :
    ∀ ch ∈ indCode ds x, ch = '0' ∨ ch = '1' := by
  intro ch hch
  simp only [indCode, List.mem_map] at hch
  obtain ⟨s, _, hs⟩ := hch
  split at hs
  · right; exact hs.symm
  · left; exact hs.symm

theorem indCode_getD (ds : List (Finset ℕ)) (x : ℕ) (i : Nat) (hi : i < ds.length) :
    (indCode ds x).getD i '0' = if x ∈ ds.getD i ∅ then '1' else '0' := by
  have h1 : ds[i]? = some ds[i] := List.getElem?_eq_getElem hi
  simp [indCode, List.getD_eq_getElem?_getD, List.getElem?_map, h1]

theorem one_mem_indCode {ds : List (Finset ℕ)} {x : ℕ} :
    '1' ∈ indCode ds x ↔ ∃ s ∈ ds, x ∈ s := by
  simp only [indCode, List.mem_map]
  constructor
  · rintro ⟨s, hs, hif⟩
    refine ⟨s, hs, ?_⟩
    by_contra hxs
    rw [if_neg hxs] at hif
    exact absurd hif (by decide)
  · rintro ⟨s, hs, hxs⟩
    exact ⟨s, hs, by rw [if_pos hxs]⟩

theorem indCode_mem_logicCodes {ds : List (Finset ℕ)} {x : ℕ} (hds : ds ≠ [])
    (hx : x ∈ dataset_union ds) : indCode ds x ∈ logicCodes ds.length :=
  mem_logicCodes.mpr ⟨indCode_length ds x, indCode_chars ds x,
    one_mem_indCode.mpr ((mem_dataset_union hds x).mp hx)⟩

/-! ### Characterisation of the petal regions -/

theorem mem_petal_set {ds : List (Finset ℕ)} {c : List Char} {x : ℕ}
    (hone : ∃ i, i < ds.length ∧ c.getD i '0' = '1') :
    x ∈ petal_set ds c ↔
      x ∈ dataset_union ds ∧
      (∀ i < ds.length, c.getD i '0' = '1' → x ∈ ds.getD i ∅) ∧
      (∀ i < ds.length, c.getD i '0' = '0' → x ∉ ds.getD i ∅) := by
  obtain ⟨i0, hi0, hc0⟩ := hone
  unfold petal_set
  simp only [Finset.mem_sdiff, Finset.mem_inter]
  have hincl_ne : ((List.range ds.length).filter (fun i => c.getD i '0' = '1')).map
      (fun i => ds.getD i ∅) ≠ [] := by
    intro h
    rw [List.map_eq_nil_iff] at h
    have : i0 ∈ (List.range ds.length).filter (fun i => c.getD i '0' = '1') :=
      List.mem_filter.mpr ⟨List.mem_range.mpr hi0, by
        show decide (c.getD i0 '0' = '1') = true
        exact decide_eq_true hc0⟩
    rw [h] at this
    simp at this
  rw [mem_py_set_intersection hincl_ne, mem_py_set_union]
  simp only [List.mem_map, List.mem_filter, List.mem_range, Finset.not_mem_empty, false_or,
    decide_eq_true_eq]
  constructor
  · rintro ⟨⟨hxu, hxi⟩, hxe⟩
    refine ⟨hxu, ?_, ?_⟩
    · intro i hi hci
      exact hxi _ ⟨i, ⟨hi, hci⟩, rfl⟩
    · intro i hi hci hxmem
      exact hxe ⟨ds.getD i ∅, ⟨i, ⟨hi, hci⟩, rfl⟩, hxmem⟩
  · rintro ⟨hxu, hin, hout⟩
    refine ⟨⟨hxu, ?_⟩, ?_⟩
    · rintro s ⟨i, ⟨hi, hci⟩, rfl⟩
      exact hin i hi hci
    · rintro ⟨s, ⟨i, ⟨hi, hci⟩, rfl⟩, hxmem⟩
      exact hout i hi hci hxmem

theorem indCode_eq_iff {ds : List (Finset ℕ)} {x : ℕ} {lg : List Char}
    (hlen : lg.length = ds.length) (hchars : ∀ ch ∈ lg, ch = '0' ∨ ch = '1') :
    indCode ds x = lg ↔
      (∀ i < ds.length, lg.getD i '0' = '1' → x ∈ ds.getD i ∅) ∧
      (∀ i < ds.length, lg.getD i '0' = '0' → x ∉ ds.getD i ∅) := by
  constructor
  · rintro rfl
    constructor
    · intro i hi hci
      rw [indCode_getD ds x i hi] at hci
      by_contra hxm
      rw [if_neg hxm] at hci
      exact absurd hci (by decide)
    · intro i hi hci hxm
      rw [indCode_getD ds x i hi, if_pos hxm] at hci
      exact absurd hci (by decide)
  · rintro ⟨hin, hout⟩
    apply List.ext_getElem (by rw [indCode_length, hlen])
    intro i hi1 hi2
    have hi : i < ds.length := by
      rw [indCode_length] at hi1
      exact hi1
    have hcd : lg.getD i '0' = lg[i] := getD_of_lt lg i '0' hi2
    have hicd : (indCode ds x).getD i '0' = (indCode ds x)[i] :=
      getD_of_lt (indCode ds x) i '0' hi1
    rcases hchars lg[i] (List.getElem_mem hi2) with h0 | h0
    · rw [← hicd, indCode_getD ds x i hi, h0]
      have hxm := hout i hi (by rw [hcd, h0])
      rw [if_neg hxm]
    · rw [← hicd, indCode_getD ds x i hi, h0]
      have hxm := hin i hi (by rw [hcd, h0])
      rw [if_pos hxm]

theorem one_index_of_mem {c : List Char} (h1 : '1' ∈ c) {n : Nat} (hlen : c.length = n) :
    ∃ i, i < n ∧ c.getD i '0' = '1' := by
  obtain ⟨i, hi, hci⟩ := List.mem_iff_getElem.mp h1
  exact ⟨i, by omega, by rw [getD_of_lt c i '0' hi, hci]⟩

theorem petal_set_eq_filter {ds : List (Finset ℕ)} {c : List Char}
    (hc : c ∈ logicCodes ds.length) :
    petal_set ds c = (dataset_union ds).filter (fun x => indCode ds x = c) := by
  obtain ⟨hlen, hchars, h1⟩ := mem_logicCodes.mp hc
  ext x
  rw [Finset.mem_filter, mem_petal_set (one_index_of_mem h1 hlen),
    and_congr_right_iff]
  intro _
  rw [indCode_eq_iff hlen hchars]

/-- The source-side fold computation of a petal agrees with the
specification-side set comprehension. -/
theorem petal_set_eq_spec_petal {ds : List (Finset ℕ)} {c : List Char}
    (hone : ∃ i, i < ds.length ∧ c.getD i '0' = '1') :
    petal_set ds c = spec_petal ds c := by
  ext x
  rw [mem_petal_set hone, spec_petal, Finset.mem_filter]

/-! ### The generated label list -/

theorem petal_loop_ok {α : Type} (u : Finset ℕ) (fmt : List Char → Nat → ℚ → α)
    (ds : List (Finset ℕ)) (hu : u.card ≠ 0) (codes : List (List Char)) :
    petal_loop u fmt ds codes = Except.ok (codes.map (fun c =>
      (c, fmt c (petal_set ds c).card
        (100 * ((petal_set ds c).card : ℚ) / (u.card : ℚ))))) := by
  induction codes with
  | nil => rfl
  | cons c rest ih => simp [petal_loop, hu, ih]

/-- With a nonempty dataset list and a nonempty universe,
`generate_petal_labels` succeeds and returns one entry per logic code in
code order. -/
theorem generate_ok {α : Type} (ds : List (Finset ℕ)) (fmt : List Char → Nat → ℚ → α)
    (hds : ds ≠ []) (hu : (dataset_union ds).card ≠ 0) :
    generate_petal_labels ds fmt = Except.ok ((logicCodes ds.length).map (fun c =>
      (c, fmt c (petal_set ds c).card
        (100 * ((petal_set ds c).card : ℚ) / ((dataset_union ds).card : ℚ))))) := by
  match ds, hds with
  | d :: rest, _ =>
    exact petal_loop_ok (dataset_union (d :: rest)) fmt (d :: rest) hu
      (logicCodes (d :: rest).length)

theorem lookup_map_graph {α : Type} (g : List Char → α) (codes : List (List Char))
    (c : List Char) (hc : c ∈ codes) :
    (codes.map (fun k => (k, g k))).lookup c = some (g c) := by
  induction codes with
  | nil => simp at hc
  | cons k rest ih =>
    by_cases hck : c = k
    · subst hck
      simp [List.lookup]
    · have hbeq : (c == k) = false := by
        simp [hck]
      simp only [List.map_cons, List.lookup, hbeq]
      rcases List.mem_cons.mp hc with rfl | hcr
      · exact absurd rfl hck
      · exact ih hcr

/-! ### Partition sums -/

/-- Petal sizes over all codes sum to the size of the universe (every element
is counted in exactly one petal: the one named by its indicator code). -/
theorem sum_petal_card (ds : List (Finset ℕ)) (hds : ds ≠ []) :
    ((logicCodes ds.length).map (fun c => (petal_set ds c).card)).sum
      = (dataset_union ds).card := by
  rw [← List.sum_toFinset _ (logicCodes_nodup ds.length)]
  rw [Finset.card_eq_sum_card_fiberwise
    (f := indCode ds) (t := (logicCodes ds.length).toFinset)
    (fun x hx => List.mem_toFinset.mpr (indCode_mem_logicCodes hds hx))]
  apply Finset.sum_congr rfl
  intro c hc
  rw [petal_set_eq_filter (List.mem_toFinset.mp hc)]

/-- Petal sizes over all codes whose bit `i` is set sum to the size of set
`i` (those petals partition `datasets[i]`). -/
theorem sum_petal_card_bit (ds : List (Finset ℕ)) (hds : ds ≠ []) (i : Nat)
    (hi : i < ds.length) :
    (∑ c ∈ (logicCodes ds.length).toFinset,
      if c.getD i '0' = '1' then (petal_set ds c).card else 0)
      = (ds.getD i ∅).card := by
  rw [Finset.card_eq_sum_card_fiberwise
    (f := indCode ds) (s := ds.getD i ∅) (t := (logicCodes ds.length).toFinset)
    (fun x hx => List.mem_toFinset.mpr
      (indCode_mem_logicCodes hds (mem_dataset_union_of_mem hi hx)))]
  apply Finset.sum_congr rfl
  intro c hc
  have hcl := List.mem_toFinset.mp hc
  by_cases hbit : c.getD i '0' = '1'
  · rw [if_pos hbit, petal_set_eq_filter hcl]
    congr 1
    ext x
    simp only [Finset.mem_filter]
    constructor
    · rintro ⟨hxu, hind⟩
      refine ⟨?_, hind⟩
      have hgd := indCode_getD ds x i hi
      rw [hind, hbit] at hgd
      by_contra hxm
      rw [if_neg hxm] at hgd
      exact absurd hgd (by decide)
    · rintro ⟨hxi, hind⟩
      exact ⟨mem_dataset_union_of_mem hi hxi, hind⟩
  · rw [if_neg hbit]
    symm
    rw [Finset.card_eq_zero, Finset.filter_eq_empty_iff]
    intro x hx hind
    have hgd := indCode_getD ds x i hi
    rw [hind, if_pos hx] at hgd
    exact hbit hgd

/-! ### Hidden-counter accounting -/

theorem getD_set (l : List Nat) (k : Nat) (a : Nat) (i : Nat) :
    (l.set k a).getD i 0 = if k = i ∧ k < l.length then a else l.getD i 0 := by
  rw [List.getD_eq_getElem?_getD, List.getD_eq_getElem?_getD, List.getElem?_set]
  by_cases hki : k = i
  · subst hki
    by_cases hk : k < l.length
    · simp [hk]
    · simp [hk, List.getElem?_eq_none (show l.length ≤ k by omega)]
  · simp [hki]

theorem one_mem_of_getD {l : List Char} {i : Nat} (h : l.getD i '0' = '1') : '1' ∈ l := by
  by_cases hi : i < l.length
  · rw [getD_of_lt l i '0' hi] at h
    exact h ▸ List.getElem_mem hi
  · rw [List.getD_eq_getElem?_getD, List.getElem?_eq_none (by omega)] at h
    exact absurd h (by decide)

theorem update_hidden_go_getD (v : Nat) (l : List Char) :
    ∀ (k : Nat) (hidden : List Nat) (i : Nat),
    (update_hidden_go v hidden (pyEnumerate k l)).getD i 0 =
      hidden.getD i 0 +
        (if i < hidden.length ∧ k ≤ i ∧ l.getD (i - k) '0' = '1' then v else 0) := by
  induction l with
  | nil =>
    intro k hidden i
    rw [pyEnumerate, update_hidden_go, if_neg]
    · omega
    · rintro ⟨-, -, hgd⟩
      rw [List.getD_eq_getElem?_getD] at hgd
      simp at hgd
  | cons ch rest ih =>
    intro k hidden i
    simp only [pyEnumerate, update_hidden_go]
    rw [ih (k + 1)]
    have hlen1 : (if ch = '1' then hidden.set k (hidden.getD k 0 + v) else hidden).length
        = hidden.length := by
      split <;> simp
    have hget1 : (if ch = '1' then hidden.set k (hidden.getD k 0 + v) else hidden).getD i 0 =
        hidden.getD i 0 + (if ch = '1' ∧ k = i ∧ k < hidden.length then v else 0) := by
      by_cases hch : ch = '1'
      · rw [if_pos hch, getD_set]
        by_cases hkj : k = i ∧ k < hidden.length
        · rw [if_pos hkj, if_pos ⟨hch, hkj⟩, hkj.1]
        · rw [if_neg hkj, if_neg (by tauto)]
          omega
      · rw [if_neg hch, if_neg (by tauto)]
        omega
    rw [hget1, hlen1]
    rcases Nat.lt_trichotomy i k with hik | hik | hik
    · have e1 : (if ch = '1' ∧ k = i ∧ k < hidden.length then v else 0) = 0 :=
        if_neg (by rintro ⟨-, h, -⟩; omega)
      have e2 : (if i < hidden.length ∧ k + 1 ≤ i ∧ rest.getD (i - (k + 1)) '0' = '1'
          then v else 0) = 0 := if_neg (by rintro ⟨-, h, -⟩; omega)
      have e3 : (if i < hidden.length ∧ k ≤ i ∧ (ch :: rest).getD (i - k) '0' = '1'
          then v else 0) = 0 := if_neg (by rintro ⟨-, h, -⟩; omega)
      rw [e1, e2, e3]
    · have e2 : (if i < hidden.length ∧ k + 1 ≤ i ∧ rest.getD (i - (k + 1)) '0' = '1'
          then v else 0) = 0 := if_neg (by rintro ⟨-, h, -⟩; omega)
      have hz : i - k = 0 := by omega
      have e3 : (ch :: rest).getD (i - k) '0' = ch := by
        rw [hz, List.getD_cons_zero]
      rw [e2, e3, Nat.add_zero]
      have hki : k = i := by omega
      subst hki
      by_cases hch : ch = '1'
      · by_cases hkl : k < hidden.length
        · rw [if_pos ⟨hch, rfl, hkl⟩, if_pos ⟨hkl, by omega, hch⟩]
        · rw [if_neg (by tauto), if_neg (by tauto)]
      · rw [if_neg (by tauto), if_neg (by tauto)]
    · have e1 : (if ch = '1' ∧ k = i ∧ k < hidden.length then v else 0) = 0 :=
        if_neg (by rintro ⟨-, h, -⟩; omega)
      have hz : i - k = (i - (k + 1)) + 1 := by omega
      have e3 : (ch :: rest).getD (i - k) '0' = rest.getD (i - (k + 1)) '0' := by
        rw [hz, List.getD_cons_succ]
      rw [e1, e3, Nat.add_zero]
      have h1 : (i < hidden.length ∧ k + 1 ≤ i ∧ rest.getD (i - (k + 1)) '0' = '1')
          ↔ (i < hidden.length ∧ k ≤ i ∧ rest.getD (i - (k + 1)) '0' = '1') := by
        constructor
        · rintro ⟨a, b, cc⟩
          exact ⟨a, by omega, cc⟩
        · rintro ⟨a, b, cc⟩
          exact ⟨a, by omega, cc⟩
      rw [if_congr h1 rfl rfl]

theorem update_hidden_go_length (v : Nat) (l : List (Nat × Char)) :
    ∀ hidden : List Nat, (update_hidden_go v hidden l).length = hidden.length := by
  induction l with
  | nil => intro hidden; rfl
  | cons ic rest ih =>
    intro hidden
    rw [update_hidden_go, ih]
    split <;> simp

/-- Functional behaviour of `update_hidden` when the label parses: counter
`i` grows by the parsed value exactly when bit `i` of the code is set. -/
theorem update_hidden_ok (hidden : List Nat) {logic : List Char}
    {pl : List (List Char × List Char)} {lbl : List Char} {v : Nat}
    (hlk : pl.lookup logic = some lbl) (hv : pyInt lbl = some v) :
    ∃ h', update_hidden hidden logic pl = Except.ok h' ∧
      h'.length = hidden.length ∧
      ∀ i, h'.getD i 0 = hidden.getD i 0 +
        (if i < hidden.length ∧ logic.getD i '0' = '1' then v else 0) := by
  by_cases h1 : '1' ∈ logic
  · refine ⟨update_hidden_go v hidden (pyEnumerate 0 logic), ?_,
      update_hidden_go_length v (pyEnumerate 0 logic) hidden, ?_⟩
    · simp only [update_hidden, h1, if_true, hlk, hv]
    · intro i
      rw [update_hidden_go_getD v logic 0 hidden i]
      congr 1
      have hz : i - 0 = i := by omega
      rw [hz]
      apply if_congr _ rfl rfl
      constructor
      · rintro ⟨a, -, b⟩
        exact ⟨a, b⟩
      · rintro ⟨a, b⟩
        exact ⟨a, by omega, b⟩
  · refine ⟨hidden, ?_, rfl, fun i => ?_⟩
    · simp only [update_hidden, if_neg h1]
    · rw [if_neg]
      · omega
      · rintro ⟨-, hgd⟩
        exact h1 (one_mem_of_getD hgd)

/-- Functional behaviour of the pseudo-Venn petal loop with `hint_hidden`
enabled, for any item list whose labels all parse: the final counters add,
on top of the initial ones, the parsed value of every undisplayed entry
whose bit is set. -/
theorem pseudovenn_loop_ok (disp : List Char → Option (ℚ × ℚ))
    (pl : List (List Char × List Char)) :
    ∀ (items : List (List Char × List Char)),
    (∀ p ∈ items, pl.lookup p.1 = some p.2 ∧ ∃ v, pyInt p.2 = some v) →
    ∀ (cmds0 : List DrawCmd) (h0 : List Nat),
    ∃ cmds h, pseudovenn_loop disp pl true items (cmds0, h0) = Except.ok (cmds, h) ∧
      h.length = h0.length ∧
      ∀ i, h.getD i 0 = h0.getD i 0 +
        (items.map (fun p =>
          if disp p.1 = none ∧ i < h0.length ∧ p.1.getD i '0' = '1'
          then (pyInt p.2).getD 0 else 0)).sum := by
  intro items
  induction items with
  | nil =>
    intro _ cmds0 h0
    exact ⟨cmds0, h0, rfl, rfl, by simp⟩
  | cons p rest ih =>
    intro H cmds0 h0
    obtain ⟨hlk, v, hv⟩ := H p (List.mem_cons_self p rest)
    have Hrest := fun q hq => H q (List.mem_cons_of_mem p hq)
    cases hdisp : disp p.1 with
    | some xy =>
      obtain ⟨cmds, h, heq, hlen, hsum⟩ :=
        ih Hrest (cmds0 ++ [DrawCmd.text xy.1 xy.2 p.2]) h0
      refine ⟨cmds, h, ?_, hlen, ?_⟩
      · rw [pseudovenn_loop, hdisp]
        exact heq
      · intro i
        rw [hsum i, List.map_cons, List.sum_cons,
          if_neg (by rintro ⟨hnone, -⟩; rw [hdisp] at hnone; exact Option.noConfusion hnone),
          Nat.zero_add]
    | none =>
      obtain ⟨h1, hupd, hlen1, hget1⟩ := update_hidden_ok h0 hlk hv
      obtain ⟨cmds, h, heq, hlen, hsum⟩ := ih Hrest cmds0 h1
      refine ⟨cmds, h, ?_, by rw [hlen, hlen1], ?_⟩
      · rw [pseudovenn_loop, hdisp]
        simp only [if_pos]
        rw [hupd]
        exact heq
      · intro i
        rw [hsum i, hget1 i, List.map_cons, List.sum_cons]
        have hc : (fun q : List Char × List Char =>
            if disp q.1 = none ∧ i < h1.length ∧ q.1.getD i '0' = '1'
            then (pyInt q.2).getD 0 else 0) = (fun q : List Char × List Char =>
            if disp q.1 = none ∧ i < h0.length ∧ q.1.getD i '0' = '1'
            then (pyInt q.2).getD 0 else 0) := by
          funext q
          rw [hlen1]
        rw [hc]
        have hhead : (if disp p.1 = none ∧ i < h0.length ∧ p.1.getD i '0' = '1'
            then (pyInt p.2).getD 0 else 0)
            = (if i < h0.length ∧ p.1.getD i '0' = '1' then v else 0) := by
          rw [hv]
          by_cases hcond : i < h0.length ∧ p.1.getD i '0' = '1'
          · rw [if_pos ⟨hdisp, hcond⟩, if_pos hcond]
            rfl
          · rw [if_neg (by tauto), if_neg hcond]
        rw [hhead]
        omega

/-! ### Key validation -/

theorem check_logic_keys_ok_iff (n : Nat) (keys : List (List Char)) :
    check_logic_keys n keys = Except.ok () ↔
      ∀ k ∈ keys, k.length = n ∧ (∀ ch ∈ k, ch = '0' ∨ ch = '1') := by
  induction keys with
  | nil => simp [check_logic_keys]
  | cons k rest ih =>
    rw [check_logic_keys]
    by_cases h1 : k.length ≠ n
    · rw [if_pos h1]
      constructor
      · intro h
        exact Except.noConfusion h
      · intro h
        exact absurd (h k (List.mem_cons_self k rest)).1 h1
    · rw [if_neg h1]
      by_cases h2 : ¬ (k.all (fun c => c = '0' ∨ c = '1') = true)
      · rw [if_pos h2]
        constructor
        · intro h
          exact Except.noConfusion h
        · intro h
          refine absurd ?_ h2
          rw [List.all_eq_true]
          intro ch hch
          exact decide_eq_true ((h k (List.mem_cons_self k rest)).2 ch hch)
      · rw [if_neg h2, ih]
        push_neg at h1 h2
        constructor
        · intro h p hp
          rcases List.mem_cons.mp hp with rfl | hp'
          · refine ⟨h1, ?_⟩
            intro ch hch
            have := List.all_eq_true.mp h2 ch hch
            exact of_decide_eq_true this
          · exact h p hp'
        · intro h p hp
          exact h p (List.mem_cons_of_mem k hp)

theorem check_logic_keys_cases (n : Nat) (keys : List (List Char)) :
    check_logic_keys n keys = Except.ok () ∨ ∃ e, check_logic_keys n keys = Except.error e := by
  cases h : check_logic_keys n keys with
  | ok u =>
    cases u
    exact Or.inl rfl
  | error e => exact Or.inr ⟨e, rfl⟩

/-! ### The default template -/

theorem fmtDenote_default (lg : List Char) (sz : Nat) (pct : ℚ) :
    fmtDenote default_fmt lg sz pct = pyStr sz := by
  have h : fmtDenote default_fmt lg sz pct = pyStr sz ++ [] := rfl
  rw [h, List.append_nil]

/-! ### Error provenance in the pseudo-Venn loop -/

theorem update_hidden_error {hidden : List Nat} {logic : List Char}
    {pl : List (List Char × List Char)} {e : PyError}
    (h : update_hidden hidden logic pl = Except.error e) :
    e = PyError.keyError ∨ e = PyError.valueError := by
  unfold update_hidden at h
  split at h
  · split at h
    · left
      injection h with h'
      exact h'.symm
    · split at h
      · right
        injection h with h'
        exact h'.symm
      · exact Except.noConfusion h
  · exact Except.noConfusion h

theorem pseudovenn_loop_error (disp : List Char → Option (ℚ × ℚ))
    (pl : List (List Char × List Char)) (hint_hidden : Bool) :
    ∀ (items : List (List Char × List Char)) (st : List DrawCmd × List Nat) (e : PyError),
    pseudovenn_loop disp pl hint_hidden items st = Except.error e →
    e = PyError.keyError ∨ e = PyError.valueError := by
  intro items
  induction items with
  | nil =>
    intro st e h
    exact Except.noConfusion h
  | cons p rest ih =>
    intro st e h
    rw [pseudovenn_loop] at h
    cases hdisp : disp p.1 with
    | some xy =>
      rw [hdisp] at h
      exact ih _ e h
    | none =>
      rw [hdisp] at h
      by_cases hh : hint_hidden
      · rw [if_pos hh] at h
        cases hupd : update_hidden st.2 p.1 pl with
        | error e' =>
          rw [hupd] at h
          have he : e' = e := by
            injection h
          exact he ▸ update_hidden_error hupd
        | ok h1 =>
          rw [hupd] at h
          exact ih _ e h
      · rw [if_neg hh] at h
        exact ih _ e h

/-! ### List sum utilities -/

theorem sum_map_filter_eq {α : Type} (l : List α) (p : α → Bool) (f : α → ℕ) :
    ((l.filter p).map f).sum = (l.map (fun x => if p x then f x else 0)).sum := by
  induction l with
  | nil => rfl
  | cons a t ih =>
    by_cases hp : p a = true
    · simp [List.filter_cons, hp, ih]
    · simp [List.filter_cons, hp, ih]

theorem getD_replicate_of_lt {α : Type} (n i : Nat) (a d : α) (h : i < n) :
    (List.replicate n a).getD i d = a := by
  rw [List.getD_eq_getElem?_getD, List.getElem?_replicate, if_pos h]
  rfl

/-! ### Claim theorems -/

/-- C3: for every sequence of `N >= 1` sets whose union is empty (all sets
empty), `generate_petal_labels` fails with a division-by-zero error,
regardless of the format template supplied — the percentage division is
evaluated unconditionally, with no guard. -/
theorem generate_petal_labels_empty_universe {α : Type} (ds : List (Finset ℕ))
    (hds : ds ≠ []) (hall : ∀ s ∈ ds, s = ∅) (fmt : List Char → Nat → ℚ → α) :
    generate_petal_labels ds fmt = Except.error PyError.zeroDivisionError := by
  have hu : (dataset_union ds).card = 0 := by
    rw [Finset.card_eq_zero, Finset.eq_empty_iff_forall_not_mem]
    intro x hx
    rw [mem_dataset_union hds x] at hx
    obtain ⟨s, hs, hxs⟩ := hx
    rw [hall s hs] at hxs
    simp at hxs
  match ds, hds, hu, hall with
  | d :: rest, _, hu, _ =>
    have hcodes : ∃ c cs, logicCodes (d :: rest).length = c :: cs := by
      have hlen := logicCodes_length (d :: rest).length
      have h2 : (2 : ℕ) ^ (d :: rest).length = 2 * 2 ^ rest.length := by
        rw [List.length_cons]
        ring
      have h1 : 1 ≤ (2 : ℕ) ^ rest.length := Nat.one_le_two_pow
      cases h : logicCodes (d :: rest).length with
      | nil =>
        rw [h] at hlen
        simp only [List.length_nil] at hlen
        omega
      | cons c cs => exact ⟨c, cs, rfl⟩
    obtain ⟨c, cs, hcs⟩ := hcodes
    show petal_loop (dataset_union (d :: rest)) fmt (d :: rest)
      (logicCodes (d :: rest).length) = Except.error PyError.zeroDivisionError
    rw [hcs, petal_loop, if_pos hu]

/-- Witness for C3 at two concrete empty sets and a size-only template. -/
theorem generate_petal_labels_empty_universe_witness :
    generate_petal_labels [(∅ : Finset ℕ), ∅] (fun _ size _ => size) =
      Except.error PyError.zeroDivisionError :=
  generate_petal_labels_empty_universe [(∅ : Finset ℕ), ∅] (by decide) (by decide) _

/-- C7: `get_n_sets` raises iff some code in the mapping has the wrong length
or a character outside \x7b0,1\x7d, and otherwise returns the number of dataset
labels. -/
theorem get_n_sets_spec {β : Type} (pl : List (List Char × β)) (dl : List (List Char)) :
    ((∃ e, get_n_sets pl dl = Except.error e) ↔
      ∃ p ∈ pl, p.1.length ≠ dl.length ∨ ∃ ch ∈ p.1, ¬ (ch = '0' ∨ ch = '1')) ∧
    (∀ n, get_n_sets pl dl = Except.ok n → n = dl.length) ∧
    ((¬ ∃ p ∈ pl, p.1.length ≠ dl.length ∨ ∃ ch ∈ p.1, ¬ (ch = '0' ∨ ch = '1')) →
      get_n_sets pl dl = Except.ok dl.length) := by
  have hgood := check_logic_keys_ok_iff dl.length (pl.map Prod.fst)
  have hbridge : (∀ k ∈ pl.map Prod.fst, k.length = dl.length ∧
      (∀ ch ∈ k, ch = '0' ∨ ch = '1')) ↔
      ¬ ∃ p ∈ pl, p.1.length ≠ dl.length ∨ ∃ ch ∈ p.1, ¬ (ch = '0' ∨ ch = '1') := by
    constructor
    · rintro hgd ⟨p, hp, hbad⟩
      have := hgd p.1 (List.mem_map.mpr ⟨p, hp, rfl⟩)
      rcases hbad with h1 | ⟨ch, hch, h2⟩
      · exact h1 this.1
      · exact h2 (this.2 ch hch)
    · intro hni k hk
      rw [List.mem_map] at hk
      obtain ⟨p, hp, rfl⟩ := hk
      constructor
      · by_contra hne
        exact hni ⟨p, hp, Or.inl hne⟩
      · intro ch hch
        by_contra hne
        exact hni ⟨p, hp, Or.inr ⟨ch, hch, hne⟩⟩
  refine ⟨⟨?_, ?_⟩, ?_, ?_⟩
  · rintro ⟨e, he⟩
    unfold get_n_sets at he
    by_contra hbad
    have hok : check_logic_keys dl.length (pl.map Prod.fst) = Except.ok () :=
      hgood.mpr (hbridge.mpr hbad)
    rw [hok] at he
    exact Except.noConfusion he
  · intro hbad
    unfold get_n_sets
    rcases check_logic_keys_cases dl.length (pl.map Prod.fst) with hok | ⟨e, herr⟩
    · exact absurd hbad (hbridge.mp (hgood.mp hok))
    · rw [herr]
      exact ⟨e, rfl⟩
  · intro n hn
    unfold get_n_sets at hn
    rcases check_logic_keys_cases dl.length (pl.map Prod.fst) with hok | ⟨e, herr⟩
    · rw [hok] at hn
      injection hn with h
      exact h.symm
    · rw [herr] at hn
      exact Except.noConfusion hn
  · intro hni
    unfold get_n_sets
    rw [hgood.mpr (hbridge.mpr hni)]

/-- Witness for C7: a consistent mapping of one two-character code against
two dataset labels is accepted and yields the label count. -/
theorem get_n_sets_spec_witness :
    get_n_sets [((['0', '1'] : List Char), 0)] [['A'], ['B']] = Except.ok 2 :=
  (get_n_sets_spec [((['0', '1'] : List Char), 0)] [['A'], ['B']]).2.2 (by decide)

/-- C9: with `hint_hidden` enabled and the pseudo-Venn composer selected, the
dispatcher rejects every template other than the default size template (or no
template) with `NotImplementedError`, before any labels are computed or
anything is drawn. -/
theorem venn_dispatch_rejects_custom_fmt (K : VennConstants)
    (sample : List Char → Nat → ℚ × ℚ × ℚ) (data : List (List Char × Finset ℕ))
    (petal_labels : Option (List (List Char × List Char))) (t : List Char)
    (ht : t ≠ default_fmt) (cmap : CmapArg) (alpha : ℚ) (legend_loc : Option (List Char)) :
    venn_dispatch K sample data VennFunc.pseudovenn6 petal_labels (some t) true
      cmap alpha legend_loc = Except.error PyError.notImplementedError := by
  unfold venn_dispatch
  rw [if_pos]
  refine ⟨rfl, rfl, ?_⟩
  rintro (h | h)
  · exact Option.noConfusion h
  · exact ht (Option.some.inj h)

/-- Witness for C9 at a concrete one-character template. -/
theorem venn_dispatch_rejects_custom_fmt_witness :
    venn_dispatch K0 sample0 [] VennFunc.pseudovenn6 none (some ['x']) true
      (CmapArg.colorList []) 1 none = Except.error PyError.notImplementedError :=
  venn_dispatch_rejects_custom_fmt K0 sample0 [] none ['x'] (by decide)
    (CmapArg.colorList []) 1 none

theorem allShapesAre_body (K : VennConstants) (pl : List (List Char × List Char))
    (dl : List (List Char)) (colors : List RGBA) (ll : Option (List Char))
    (n : Nat) (kind : Shape) :
    allShapesAre kind (draw_venn_body K pl dl colors ll n kind) = true := by
  unfold allShapesAre draw_venn_body
  rw [List.all_eq_true]
  intro c hc
  rcases List.mem_append.mp hc with hc1 | hc1
  · rcases List.mem_append.mp hc1 with hc2 | hc2
    · rw [List.mem_map] at hc2
      obtain ⟨row, _, rfl⟩ := hc2
      simp
    · rw [List.mem_filterMap] at hc2
      obtain ⟨p, _, hp⟩ := hc2
      cases hco : K.PETAL_LABEL_COORDS n p.1 with
      | none =>
        rw [hco] at hp
        exact Option.noConfusion hp
      | some xy =>
        rw [hco] at hp
        injection hp with hp
        rw [← hp]
  · cases ll with
    | some loc =>
      rw [List.mem_singleton] at hc1
      rw [hc1]
    | none => simp at hc1

/-- C5: with the confirmed set count `n`, `draw_venn` selects the ellipse
variant for `n` in 2..5 (and every drawn shape is an ellipse), the triangle
variant for `n = 6` (every drawn shape a triangle), and raises `ValueError`
before drawing any shape for `n` outside 2..6. -/
theorem draw_venn_shape_selection (K : VennConstants) (pl : List (List Char × List Char))
    (dl : List (List Char)) (hh : Bool) (colors : List RGBA) (ll : Option (List Char))
    (n : Nat) (hn : get_n_sets pl dl = Except.ok n) :
    (2 ≤ n ∧ n < 6 →
      Except.map (allShapesAre Shape.ellipse) (draw_venn K pl dl hh colors ll)
        = Except.ok true) ∧
    (n = 6 →
      Except.map (allShapesAre Shape.triangle) (draw_venn K pl dl hh colors ll)
        = Except.ok true) ∧
    (¬ (2 ≤ n ∧ n ≤ 6) →
      draw_venn K pl dl hh colors ll = Except.error PyError.valueError) := by
  refine ⟨?_, ?_, ?_⟩
  · intro h25
    simp only [draw_venn, hn, if_pos h25, Except.map]
    rw [allShapesAre_body]
  · intro h6
    subst h6
    simp only [draw_venn, hn]
    rw [if_neg (show ¬ (2 ≤ 6 ∧ 6 < 6) by omega)]
    simp only [if_true, Except.map, allShapesAre_body]
  · intro hout
    simp only [draw_venn, hn]
    rw [if_neg (by omega), if_neg (by omega)]

/-- Witness for C5: three sets draw ellipses; one set raises. -/
theorem draw_venn_shape_selection_witness :
    Except.map (allShapesAre Shape.ellipse)
      (draw_venn K0 [] [['A'], ['B'], ['C']] false [(0, 0, 0, 0)] none) = Except.ok true ∧
    draw_venn K0 [] [['A']] false [] none = Except.error PyError.valueError :=
  ⟨(draw_venn_shape_selection K0 [] [['A'], ['B'], ['C']] false [(0, 0, 0, 0)] none 3
      rfl).1 (by omega),
   (draw_venn_shape_selection K0 [] [['A']] false [] none 1 rfl).2.2 (by omega)⟩

/-- C8: the pseudo-Venn composer raises `NotImplementedError` for every
confirmed set count other than six, before drawing; for six sets it never
raises that error. -/
theorem draw_pseudovenn6_set_count (K : VennConstants) (pl : List (List Char × List Char))
    (dl : List (List Char)) (hh : Bool) (colors : List RGBA) (ll : Option (List Char))
    (n : Nat) (hn : get_n_sets pl dl = Except.ok n) :
    (n ≠ 6 →
      draw_pseudovenn6 K pl dl hh colors ll = Except.error PyError.notImplementedError) ∧
    (n = 6 →
      draw_pseudovenn6 K pl dl hh colors ll ≠ Except.error PyError.notImplementedError) := by
  constructor
  · intro h6
    simp only [draw_pseudovenn6, hn, if_pos h6]
  · intro h6
    subst h6
    simp only [draw_pseudovenn6, hn]
    rw [if_neg (by omega)]
    intro hcontra
    cases hloop : pseudovenn_loop K.PSEUDOVENN_PETAL_COORDS6 pl hh pl
        ([], List.replicate 6 0) with
    | error e =>
      simp only [hloop] at hcontra
      have he : e = PyError.notImplementedError := by
        injection hcontra
      rcases pseudovenn_loop_error K.PSEUDOVENN_PETAL_COORDS6 pl hh pl
          ([], List.replicate 6 0) e hloop with h | h
      · rw [he] at h
        exact PyError.noConfusion h
      · rw [he] at h
        exact PyError.noConfusion h
    | ok st =>
      simp only [hloop] at hcontra
      exact Except.noConfusion hcontra

/-- Witness for C8: seven labels raise, six labels do not raise the
not-implemented error. -/
theorem draw_pseudovenn6_set_count_witness :
    draw_pseudovenn6 K0 [] [['A'], ['B'], ['C'], ['D'], ['E'], ['F'], ['G']] true [] none
      = Except.error PyError.notImplementedError ∧
    draw_pseudovenn6 K0 [] [['A'], ['B'], ['C'], ['D'], ['E'], ['F']] true [] none
      ≠ Except.error PyError.notImplementedError :=
  ⟨(draw_pseudovenn6_set_count K0 [] [['A'], ['B'], ['C'], ['D'], ['E'], ['F'], ['G']]
      true [] none 7 rfl).1 (by omega),
   (draw_pseudovenn6_set_count K0 [] [['A'], ['B'], ['C'], ['D'], ['E'], ['F']]
      true [] none 6 rfl).2 rfl⟩

/-- Counterexample for C6 as stated: with an explicit one-color list and
`n_colors = 3`, `generate_colors` returns one tuple, not three — the slice
`colors[:n_colors]` truncates but never pads, so the claimed "exactly
n_colors tuples" fails for explicit lists shorter than `n_colors`. -/
theorem generate_colors_short_list_counterexample :
    Except.map List.length (generate_colors sample0 (CmapArg.colorList [⟨1, 0, 0⟩])
      (PyNumber.int 3) 1) = Except.ok 1 ∧
    ¬ Except.map List.length (generate_colors sample0 (CmapArg.colorList [⟨1, 0, 0⟩])
      (PyNumber.int 3) 1) = Except.ok 3 := by
  refine ⟨rfl, ?_⟩
  intro h
  have h1 : (Except.ok 1 : Except PyError ℕ) = Except.ok 3 := by
    rw [← h]
    rfl
  injection h1 with h2
  omega

/-- C6 (amended): `generate_colors` raises exactly when `n_colors` is not an
integer or lies outside 2..6; on success every returned tuple is an RGBA
4-tuple whose 4th element is the requested alpha, and the count equals
`n_colors` for a colormap identifier but `min(len(list), n_colors)` for an
explicit color list (a list shorter than `n_colors` yields fewer tuples). -/
theorem generate_colors_spec (sample : List Char → Nat → ℚ × ℚ × ℚ) (cmap : CmapArg)
    (n_colors : PyNumber) (alpha : ℚ) :
    ((∀ n : Int, n_colors = PyNumber.int n → n < 2 ∨ 6 < n) →
      generate_colors sample cmap n_colors alpha = Except.error PyError.valueError) ∧
    (∀ n : Int, n_colors = PyNumber.int n → 2 ≤ n → n ≤ 6 →
      ∃ l, generate_colors sample cmap n_colors alpha = Except.ok l) ∧
    (∀ n : Int, n_colors = PyNumber.int n → ∀ l,
      generate_colors sample cmap n_colors alpha = Except.ok l →
      (∀ t ∈ l, t.2.2.2 = alpha) ∧
      (∀ nm, cmap = CmapArg.name nm → l.length = n.toNat) ∧
      (∀ cs, cmap = CmapArg.colorList cs → l.length = min cs.length n.toNat)) := by
  refine ⟨?_, ?_, ?_⟩
  · intro hbad
    cases n_colors with
    | float q => rfl
    | int n =>
      have hb := hbad n rfl
      simp only [generate_colors, if_pos hb]
  · rintro n rfl h2 h6
    simp only [generate_colors]
    rw [if_neg (by omega)]
    exact ⟨_, rfl⟩
  · rintro n rfl l hl
    by_cases hb : n < 2 ∨ 6 < n
    · simp only [generate_colors, if_pos hb] at hl
      exact Except.noConfusion hl
    · simp only [generate_colors, if_neg hb] at hl
      injection hl with hl
      subst hl
      refine ⟨?_, ?_, ?_⟩
      · intro t ht
        have hmem := List.take_subset n.toNat _ ht
        cases cmap with
        | colorList cs =>
          rw [List.mem_map] at hmem
          obtain ⟨cc, -, rfl⟩ := hmem
          rfl
        | name nm =>
          rw [List.mem_map] at hmem
          obtain ⟨j, -, rfl⟩ := hmem
          rfl
      · rintro nm rfl
        simp [List.length_take]
      · rintro cs rfl
        simp [List.length_take, Nat.min_comm]

/-- Witness for the amended C6: a non-range count raises. -/
theorem generate_colors_spec_witness :
    generate_colors sample0 (CmapArg.colorList []) (PyNumber.int 9) 1
      = Except.error PyError.valueError :=
  (generate_colors_spec sample0 (CmapArg.colorList []) (PyNumber.int 9) 1).1
    (by
      intro n h
      injection h with h2
      omega)

/-- C1: for sets with a nonempty union and any nonzero logic code of the
right length, the generated mapping stores, under that code, the template
applied with `logic` the code, `size` the cardinality of
(universe ∩ included sets) minus the excluded sets, and `percentage` equal
to `100 * size / universe size` (exact rational value of the float). -/
theorem generate_petal_labels_entry {α : Type} (ds : List (Finset ℕ)) (h2 : 2 ≤ ds.length)
    (hu : dataset_union ds ≠ ∅) (fmt : List Char → Nat → ℚ → α) (c : List Char)
    (hlen : c.length = ds.length) (hchars : ∀ ch ∈ c, ch = '0' ∨ ch = '1')
    (h1 : '1' ∈ c) :
    Except.map (List.lookup c) (generate_petal_labels ds fmt) =
      Except.ok (some (fmt c (spec_petal ds c).card
        (100 * ((spec_petal ds c).card : ℚ) / ((dataset_union ds).card : ℚ)))) := by
  have hds : ds ≠ [] := by
    intro h
    rw [h] at h2
    simp at h2
  have hcard : (dataset_union ds).card ≠ 0 := by
    rw [Ne, Finset.card_eq_zero]
    exact hu
  have hc : c ∈ logicCodes ds.length := mem_logicCodes.mpr ⟨hlen, hchars, h1⟩
  have hspec : petal_set ds c = spec_petal ds c :=
    petal_set_eq_spec_petal (one_index_of_mem h1 hlen)
  rw [generate_ok ds fmt hds hcard]
  simp only [Except.map]
  rw [lookup_map_graph (fun k => fmt k (petal_set ds k).card
    (100 * ((petal_set ds k).card : ℚ) / ((dataset_union ds).card : ℚ)))
    (logicCodes ds.length) c hc]
  rw [hspec]

/-- Witness for C1 at two concrete sets and the full-intersection code. -/
theorem generate_petal_labels_entry_witness :
    Except.map (List.lookup ['1', '1'])
      (generate_petal_labels [({1, 2, 3} : Finset ℕ), {2, 3, 4}]
        (fun lg size _ => (lg, size)))
      = Except.ok (some ((['1', '1'] : List Char),
          (spec_petal [({1, 2, 3} : Finset ℕ), {2, 3, 4}] ['1', '1']).card)) ∧
    (spec_petal [({1, 2, 3} : Finset ℕ), {2, 3, 4}] ['1', '1']).card = 2 :=
  ⟨generate_petal_labels_entry [({1, 2, 3} : Finset ℕ), {2, 3, 4}] (by decide) (by decide)
    (fun lg size _ => (lg, size)) ['1', '1'] (by decide) (by decide) (by decide),
   by decide⟩

/-- C2: the petal sizes produced by `generate_petal_labels` over all
`2^N - 1` codes sum to the cardinality of the union of the sets. -/
theorem generate_petal_labels_partition (ds : List (Finset ℕ)) (h2 : 2 ≤ ds.length)
    (hu : dataset_union ds ≠ ∅) :
    Except.map (fun l => (l.map Prod.snd).sum)
      (generate_petal_labels ds (fun _ size _ => size)) =
      Except.ok (dataset_union ds).card := by
  have hds : ds ≠ [] := by
    intro h
    rw [h] at h2
    simp at h2
  have hcard : (dataset_union ds).card ≠ 0 := by
    rw [Ne, Finset.card_eq_zero]
    exact hu
  rw [generate_ok ds (fun _ size _ => size) hds hcard]
  simp only [Except.map]
  congr 1
  have hm : List.map Prod.snd ((logicCodes ds.length).map (fun c =>
      (c, (fun _ size _ => size) c (petal_set ds c).card
        (100 * ((petal_set ds c).card : ℚ) / ((dataset_union ds).card : ℚ)))))
      = (logicCodes ds.length).map (fun c => (petal_set ds c).card) := by
    rw [List.map_map]
    rfl
  rw [hm, sum_petal_card ds hds]

/-- Witness for C2: the two concrete sets partition their four-element
union. -/
theorem generate_petal_labels_partition_witness :
    Except.map (fun l => (l.map Prod.snd).sum)
      (generate_petal_labels [({1, 2, 3} : Finset ℕ), {2, 3, 4}] (fun _ size _ => size))
      = Except.ok (dataset_union [({1, 2, 3} : Finset ℕ), {2, 3, 4}]).card ∧
    (dataset_union [({1, 2, 3} : Finset ℕ), {2, 3, 4}]).card = 4 :=
  ⟨generate_petal_labels_partition [({1, 2, 3} : Finset ℕ), {2, 3, 4}] (by decide)
    (by decide), by decide⟩

theorem map_fst_graph {α : Type} (g : List Char → α) (codes : List (List Char)) :
    ((codes.map (fun k => (k, g k))).map Prod.fst) = codes := by
  induction codes with
  | nil => rfl
  | cons c rest ih => simp [ih]

/-- C10: `generate_petal_labels` does not validate the set count — a single
nonempty set is accepted and yields the one-entry mapping for code `"1"` —
and in general the keys are exactly the `2^N - 1` nonzero zero-padded
length-`N` binary codes. -/
theorem generate_petal_labels_no_count_check {α : Type} (S : Finset ℕ) (hS : S ≠ ∅)
    (ds : List (Finset ℕ)) (hds : ds ≠ []) (hu : dataset_union ds ≠ ∅)
    (fmt : List Char → Nat → ℚ → α) :
    generate_petal_labels [S] fmt = Except.ok [(['1'], fmt ['1'] S.card 100)] ∧
    Except.map (List.map Prod.fst) (generate_petal_labels ds fmt)
      = Except.ok (logicCodes ds.length) ∧
    (logicCodes ds.length).length = 2 ^ ds.length - 1 ∧
    (logicCodes ds.length).Nodup ∧
    (∀ c : List Char, c ∈ logicCodes ds.length ↔
      c.length = ds.length ∧ (∀ ch ∈ c, ch = '0' ∨ ch = '1') ∧ '1' ∈ c) := by
  refine ⟨?_, ?_, logicCodes_length ds.length, logicCodes_nodup ds.length,
    fun c => mem_logicCodes⟩
  · have hds1 : ([S] : List (Finset ℕ)) ≠ [] := by simp
    have huS : dataset_union [S] = S := rfl
    have hSc : S.card ≠ 0 := by
      rw [Ne, Finset.card_eq_zero]
      exact hS
    have hcard : (dataset_union [S]).card ≠ 0 := by
      rw [huS]
      exact hSc
    rw [generate_ok [S] fmt hds1 hcard]
    have hcodes : logicCodes ([S] : List (Finset ℕ)).length = [['1']] := rfl
    rw [hcodes]
    have hp : petal_set [S] ['1'] = S := by
      ext x
      rw [mem_petal_set (show ∃ i, i < ([S] : List (Finset ℕ)).length ∧
        (['1'] : List Char).getD i '0' = '1' from ⟨0, by simp, rfl⟩)]
      constructor
      · rintro ⟨hxu, -, -⟩
        rw [huS] at hxu
        exact hxu
      · intro hx
        refine ⟨by rw [huS]; exact hx, ?_, ?_⟩
        · intro i hi hci
          simp only [List.length_singleton] at hi
          interval_cases i
          exact hx
        · intro i hi hci
          simp only [List.length_singleton] at hi
          interval_cases i
          exact absurd hci (by decide)
    have hpct : 100 * ((S.card : ℚ)) / ((dataset_union [S]).card : ℚ) = 100 := by
      have hcn : ((S.card : ℚ)) ≠ 0 := Nat.cast_ne_zero.mpr hSc
      rw [huS, mul_div_assoc, div_self hcn, mul_one]
    simp only [List.map_singleton, hp, hpct]
  · have hcard : (dataset_union ds).card ≠ 0 := by
      rw [Ne, Finset.card_eq_zero]
      exact hu
    rw [generate_ok ds fmt hds hcard]
    simp only [Except.map]
    congr 1
    exact map_fst_graph _ (logicCodes ds.length)

/-- Witness for C10 at a concrete singleton set. -/
theorem generate_petal_labels_no_count_check_witness :
    generate_petal_labels [({5} : Finset ℕ)] (fun lg size _ => (lg, size))
      = Except.ok [(['1'], (['1'], ({5} : Finset ℕ).card))] ∧
    ({5} : Finset ℕ).card = 1 :=
  ⟨(generate_petal_labels_no_count_check ({5} : Finset ℕ) (by decide) [({5} : Finset ℕ)]
      (by decide) (by decide) (fun lg size _ => (lg, size))).1, by decide⟩

/-- C4: for six sets whose petal labels were generated with the default size
template, after `draw_pseudovenn6` runs with `hint_hidden` enabled, the
hidden-count annotation drawn for set `i` plus the sizes of the displayed
codes (those present in the sparse pseudo-Venn position table) whose bit `i`
is set add up to the total cardinality of set `i`.  The position table lives
in `venn/_constants.py` (outside the sources) and is quantified over, so the
accounting holds for every table. -/
theorem pseudovenn_hidden_accounting (K : VennConstants) (ds : List (Finset ℕ))
    (hn6 : ds.length = 6) (hu : dataset_union ds ≠ ∅)
    (pl : List (List Char × List Char))
    (hpl : generate_petal_labels ds (fmtDenote default_fmt) = Except.ok pl)
    (dl : List (List Char)) (colors : List RGBA) (ll : Option (List Char))
    (out : List DrawCmd)
    (hdraw : draw_pseudovenn6 K pl dl true colors ll = Except.ok out)
    (i : Nat) (hi : i < 6) :
    ∃ v, DrawCmd.hintText i v ∈ out ∧
      v + ((pl.filter (fun p => (K.PSEUDOVENN_PETAL_COORDS6 p.1).isSome
          && (p.1.getD i '0' == '1'))).map (fun p => (petal_set ds p.1).card)).sum
        = (ds.getD i ∅).card := by
  have hds : ds ≠ [] := by
    intro h
    rw [h] at hn6
    simp at hn6
  have hi' : i < ds.length := by omega
  have hcard : (dataset_union ds).card ≠ 0 := by
    rw [Ne, Finset.card_eq_zero]
    exact hu
  have hpl2 : pl = (logicCodes ds.length).map
      (fun c => (c, pyStr (petal_set ds c).card)) := by
    rw [generate_ok ds (fmtDenote default_fmt) hds hcard] at hpl
    injection hpl with h
    rw [← h]
    apply List.map_congr_left
    intro c _
    rw [fmtDenote_default]
  cases hg : get_n_sets pl dl with
  | error e =>
    simp only [draw_pseudovenn6, hg] at hdraw
    exact Except.noConfusion hdraw
  | ok n =>
    by_cases hn : n ≠ 6
    · simp only [draw_pseudovenn6, hg, if_pos hn] at hdraw
      exact Except.noConfusion hdraw
    · push_neg at hn
      subst hn
      have H : ∀ p ∈ pl, pl.lookup p.1 = some p.2 ∧ ∃ v, pyInt p.2 = some v := by
        intro p hp
        rw [hpl2] at hp
        rw [List.mem_map] at hp
        obtain ⟨c, hc, rfl⟩ := hp
        constructor
        · rw [hpl2]
          exact lookup_map_graph (fun k => pyStr (petal_set ds k).card) _ c hc
        · exact ⟨(petal_set ds c).card, pyInt_pyStr _⟩
      obtain ⟨cmds, h, heq, hlen, hsum⟩ :=
        pseudovenn_loop_ok K.PSEUDOVENN_PETAL_COORDS6 pl pl H [] (List.replicate 6 0)
      simp only [draw_pseudovenn6, hg] at hdraw
      rw [if_neg (show ¬ ((6 : ℕ) ≠ 6) by omega)] at hdraw
      rw [heq] at hdraw
      simp only [if_true] at hdraw
      injection hdraw with hout
      have hlen6 : h.length = 6 := by
        rw [hlen]
        simp
      refine ⟨h.getD i 0, ?_, ?_⟩
      · have hmemz : (i, h.getD i 0) ∈ (List.range 6).zip h := by
          rw [List.mem_iff_getElem]
          have hzl : ((List.range 6).zip h).length = 6 := by
            rw [List.length_zip, List.length_range, hlen6]
            simp
          refine ⟨i, by omega, ?_⟩
          rw [List.getElem_zip, List.getElem_range]
          rw [getD_of_lt h i 0 (by omega)]
        rw [← hout]
        refine List.mem_append.mpr (Or.inl ?_)
        refine List.mem_append.mpr (Or.inr ?_)
        refine List.mem_append.mpr (Or.inl ?_)
        exact List.mem_map_of_mem (fun sh => DrawCmd.hintText sh.1 sh.2) hmemz
      · rw [hsum i, getD_replicate_of_lt 6 i 0 0 hi, Nat.zero_add]
        have hhs : (pl.map (fun p =>
            if K.PSEUDOVENN_PETAL_COORDS6 p.1 = none ∧
              i < (List.replicate 6 (0 : ℕ)).length ∧ p.1.getD i '0' = '1'
            then (pyInt p.2).getD 0 else 0)).sum
            = ((logicCodes ds.length).map (fun c =>
              if K.PSEUDOVENN_PETAL_COORDS6 c = none ∧ c.getD i '0' = '1'
              then (petal_set ds c).card else 0)).sum := by
          rw [hpl2, List.map_map]
          apply congrArg List.sum
          apply List.map_congr_left
          intro c _
          simp only [Function.comp_apply, pyInt_pyStr]
          by_cases hcnd : K.PSEUDOVENN_PETAL_COORDS6 c = none ∧ c.getD i '0' = '1'
          · rw [if_pos ⟨hcnd.1, by simp [hi], hcnd.2⟩, if_pos hcnd]
            rfl
          · rw [if_neg (by tauto), if_neg hcnd]
        rw [hhs]
        have hdisp2 : ((pl.filter (fun p => (K.PSEUDOVENN_PETAL_COORDS6 p.1).isSome
            && (p.1.getD i '0' == '1'))).map (fun p => (petal_set ds p.1).card)).sum
            = ((logicCodes ds.length).map (fun c =>
              if (K.PSEUDOVENN_PETAL_COORDS6 c).isSome ∧ c.getD i '0' = '1'
              then (petal_set ds c).card else 0)).sum := by
          rw [sum_map_filter_eq, hpl2, List.map_map]
          apply congrArg List.sum
          apply List.map_congr_left
          intro c _
          simp only [Function.comp_apply]
          cases hdc : K.PSEUDOVENN_PETAL_COORDS6 c with
          | none =>
            by_cases hb : c.getD i '0' = '1'
            · simp [hdc, hb]
            · simp [hdc, hb]
          | some xy =>
            by_cases hb : c.getD i '0' = '1'
            · simp [hdc, hb]
            · simp [hdc, hb]
        rw [hdisp2]
        have hsplit : ((logicCodes ds.length).map (fun c =>
            if K.PSEUDOVENN_PETAL_COORDS6 c = none ∧ c.getD i '0' = '1'
            then (petal_set ds c).card else 0)).sum +
            ((logicCodes ds.length).map (fun c =>
              if (K.PSEUDOVENN_PETAL_COORDS6 c).isSome ∧ c.getD i '0' = '1'
              then (petal_set ds c).card else 0)).sum
            = ((logicCodes ds.length).map (fun c =>
              if c.getD i '0' = '1' then (petal_set ds c).card else 0)).sum := by
          rw [← List.sum_map_add]
          apply congrArg List.sum
          apply List.map_congr_left
          intro c _
          cases hdc : K.PSEUDOVENN_PETAL_COORDS6 c with
          | none =>
            by_cases hb : c.getD i '0' = '1'
            · simp [hdc, hb]
            · simp [hdc, hb]
          | some xy =>
            by_cases hb : c.getD i '0' = '1'
            · simp [hdc, hb]
            · simp [hdc, hb]
        rw [hsplit]
        rw [← List.sum_toFinset _ (logicCodes_nodup ds.length)]
        exact sum_petal_card_bit ds hds i hi'

/-- Witness for C4 on six concrete disjoint singleton sets with one
displayed code. -/
theorem pseudovenn_hidden_accounting_witness :
    ∃ v, DrawCmd.hintText 0 v ∈ out6 ∧
      v + ((pl6.filter (fun p => (K1.PSEUDOVENN_PETAL_COORDS6 p.1).isSome
          && (p.1.getD 0 '0' == '1'))).map (fun p => (petal_set ds6 p.1).card)).sum
        = (ds6.getD 0 ∅).card :=
  pseudovenn_hidden_accounting K1 ds6 rfl (by decide) pl6 (by rfl) dl6 [] none out6
    (by rfl) 0 (by decide)

end Pyvenn

